import Mathlib

/-!
# A verification development for the state.js hierarchical state machine library

The repository ships only the TypeScript declaration file
`src/lib/node/state.d.ts`; every implementation body (model construction,
validation, the bootstrap compiler and the message evaluator) is absent from
the sources.  The definitions below therefore embed the data model from the
declarations and model the missing behaviour from the specification
(`spec.md`), as noted on each definition.

The embedding is arena-based: vertices, regions and transitions are
identified by natural-number ids and a `Model` holds the lookup tables, as
suggested by the spec's design notes (§9, "arena + indices").  Recursive
walks over the tree carry an explicit fuel argument so that every function
is total and executable.
-/

namespace StateJS

/-- Vertex identifiers in the arena. -/
abbrev VId := Nat

/-- Region identifiers in the arena. -/
abbrev RId := Nat

/-- Transition identifiers in the arena. -/
abbrev TId := Nat

/-- `PseudoStateKind` from `src/lib/node/state.d.ts` (lines 11-36). -/
inductive PseudoStateKind where
  | Choice
  | DeepHistory
  | Initial
  | Junction
  | ShallowHistory
  | Terminate
  deriving DecidableEq, Repr

/-- `TransitionKind` from `src/lib/node/state.d.ts` (lines 59-66). -/
inductive TransitionKind where
  | External
  | Internal
  | Local
  deriving DecidableEq, Repr

/-- `PseudoStateKind.isHistory` (state.d.ts lines 38-44): history kinds are
`ShallowHistory` and `DeepHistory`. -/
def PseudoStateKind.isHistory : PseudoStateKind → Bool
  | .ShallowHistory => true
  | .DeepHistory => true
  | _ => false

/-- `PseudoStateKind.isInitial` (state.d.ts lines 45-51): the initial family
is `Initial`, `ShallowHistory` and `DeepHistory`. -/
def PseudoStateKind.isInitial : PseudoStateKind → Bool
  | .Initial => true
  | .ShallowHistory => true
  | .DeepHistory => true
  | _ => false

/-- Per-instance store, after `IInstance` (state.d.ts lines 451-465):
the last known current vertex of each region and the terminated flag. -/
structure Instance where
  current : RId → Option VId
  isTerminated : Bool

/-- `IInstance.setCurrent` (state.d.ts line 459): record `v` as the last
known active child of region `r`. -/
def Instance.setCurrent (inst : Instance) (r : RId) (v : VId) : Instance :=
  { inst with current := fun r' => if r' = r then some v else inst.current r' }

/-- Data of one vertex in the arena: its parent region (none for the state
machine root), its pseudo-state kind (none for states), whether it was built
by the `FinalState` class, its child regions in declared order and its
outgoing transitions in declared order. -/
structure VertexData where
  parent : Option RId
  pseudo : Option PseudoStateKind
  finalClass : Bool
  regions : List RId
  outgoing : List TId
  deriving DecidableEq, Repr

/-- Data of one region: its parent state and its child vertices in declared
order. -/
structure RegionData where
  parent : VId
  vertices : List VId
  deriving DecidableEq, Repr

/-- Data of one transition: the tuple `(source, target?, kind, guard)` of the
spec's data model (§3), plus the else marker.  In the source the else marker
is the sentinel guard `Transition.isElse`; here it is a flag kept alongside
the guard. -/
structure TransitionData (M : Type) where
  source : VId
  target : Option VId
  kind : TransitionKind
  isElse : Bool
  guard : M → Instance → Bool

/-- Per-transition data precomputed by the compiler (spec §4.2 pass B): what
to leave (`Sum.inl v`: leave the vertex `v`; `Sum.inr r`: leave the current
child of region `r`; `none`: internal, leave nothing) and the chain of
vertices to enter, outermost first. -/
structure CompiledT where
  exitTarget : Option (VId ⊕ RId)
  entryChain : List VId

/-- The state machine model: arena lookup tables, the root vertex, the
`clean` flag of `fsm.StateMachine` (state.d.ts line 858), the table produced
by the bootstrap compiler, a bound on the height of the tree used as fuel by
the compiler, and the `internalTransitionsTriggerCompletion` global
(state.d.ts lines 500-505). -/
structure Model (M : Type) where
  vertices : VId → Option VertexData
  regions : RId → Option RegionData
  transitions : TId → Option (TransitionData M)
  root : VId
  clean : Bool
  compiled : Option (TId → Option CompiledT)
  depth : Nat
  itc : Bool

/-- Root-first list of the vertex ancestors of `v`, ending with `v` itself,
after `fsm.Vertex.ancestors` (state.d.ts line 569). -/
def ancG {M : Type} : Nat → Model M → VId → List VId
  | 0, _, v => [v]
  | fuel + 1, m, v =>
    match m.vertices v with
    | some vd =>
      match vd.parent with
      | some r =>
        match m.regions r with
        | some rd => ancG fuel m rd.parent ++ [v]
        | none => [v]
      | none => [v]
    | none => [v]

/-- The parent regions of the vertices of an ancestry list, root-first; the
root vertex (which has no parent region) contributes nothing. -/
def regChainOf {M : Type} (m : Model M) (va : List VId) : List RId :=
  va.filterMap fun x => (m.vertices x).bind (·.parent)

/-- Length of the longest common prefix of two region chains; the last
common region is the least common ancestor of the spec (§4.2 pass B). -/
def commonPrefixLen : List RId → List RId → Nat
  | a :: as, b :: bs => if a = b then commonPrefixLen as bs + 1 else 0
  | _, _ => 0

/-- `v` is a proper descendant of `a`: `a` occurs strictly above `v` in
`v`'s ancestry. -/
def isProperDescendantOf {M : Type} (fuel : Nat) (m : Model M) (v a : VId) : Bool :=
  ((ancG fuel m v).dropLast).contains a

/-- Modelled from the spec: the `Transition` constructor
(state.d.ts lines 285-295, body absent).  Per spec §3, a null target denotes
an internal transition, and `Local` is valid only when the target is a
proper descendant of the source; otherwise the constructor normalizes the
kind to the `External` default. -/
def mkTransition {M : Type} (fuel : Nat) (m : Model M) (src : VId) (tgt : Option VId)
    (k : TransitionKind) (g : M → Instance → Bool) : TransitionData M :=
  { source := src
    target := tgt
    isElse := false
    guard := g
    kind :=
      match tgt with
      | none => .Internal
      | some t =>
        match k with
        | .Local => if isProperDescendantOf fuel m t src then .Local else .External
        | .External => .External
        | .Internal => .Internal }

/-- Modelled from the spec: `Transition.else` (state.d.ts lines 296-300,
body absent).  Marks the transition as an else branch; in the source this
replaces the guard by the always-false sentinel `Transition.isElse`
(state.d.ts line 911). -/
def TransitionData.markElse {M : Type} (t : TransitionData M) : TransitionData M :=
  { t with isElse := true, guard := fun _ _ => false }

/-- Modelled from the spec: `Transition.when` (state.d.ts lines 301-306,
body absent).  Sets the guard; per the declaration's note, "multiple calls
to the when method will just result in the guard condition as specified in
[the] last when call made", so the previous guard (else sentinel included)
is replaced. -/
def TransitionData.when {M : Type} (t : TransitionData M) (g : M → Instance → Bool) :
    TransitionData M :=
  { t with guard := g, isElse := false }

/-- Modelled from the spec: `fsm.State.isFinal` (state.d.ts lines 771-777,
body absent): "a final state is one that has no outbound transitions".  The
`finalClass` marker is deliberately not consulted. -/
def isFinalS {M : Type} (m : Model M) (v : VId) : Bool :=
  match m.vertices v with
  | some vd => vd.outgoing.isEmpty
  | none => false

/-- Modelled from the spec: `fsm.Region.isComplete` (state.d.ts lines
609-615, body absent): a region is complete when its current state is
final. -/
def isCompleteR {M : Type} (m : Model M) (inst : Instance) (r : RId) : Bool :=
  match inst.current r with
  | some v => isFinalS m v
  | none => false

/-- Modelled from the spec: `fsm.Vertex.isComplete` (state.d.ts lines
633-641, body absent): pseudo states and simple states are always complete;
composite states are complete when all their child regions are complete. -/
def isCompleteS {M : Type} (m : Model M) (inst : Instance) (v : VId) : Bool :=
  match m.vertices v with
  | some vd => vd.regions.all fun r => isCompleteR m inst r
  | none => false

/-- Observable events of a run: the point where a state's (or pseudo
state's) exit behaviour runs, the point where an element's `beginEnter`
pipeline (recording the current vertex and running user entry behaviour)
runs, the point where a transition's own actions run, and an error reported
through the logging sink. -/
inductive Ev where
  | exitV (v : VId)
  | entryV (v : VId)
  | effectE (t : TId)
  | errorE (s : String)
  deriving DecidableEq, Repr

/-- Result of evaluating a message: whether a transition was consumed, the
updated instance, and the trace of observable events. -/
structure EvalRes where
  consumed : Bool
  inst : Instance
  trace : List Ev

/-- Modelled from the spec: the `leave` pipeline of the compiler (spec §4.2
pass A, implementation absent from src/).  Exit runs child-before-parent
(spec §5(c)): each child region leaves its current child vertex, then the
vertex's own exit point runs.  Child regions are processed in declared
order; note that spec §5(d) states regions are exited in declared order
while spec §8 states reverse-declared order, and the absent implementation
leaves the conflict unresolved — declared order is used here. -/
def leaveVertex {M : Type} : Nat → Model M → Instance → VId → List Ev
  | 0, _, _, v => [Ev.exitV v]
  | fuel + 1, m, inst, v =>
    (match m.vertices v with
     | some vd =>
       (vd.regions.map fun r =>
         match inst.current r with
         | some x => leaveVertex fuel m inst x
         | none => []).flatten
     | none => []) ++ [Ev.exitV v]

/-- Modelled from the spec: the `leave` pipeline of a region (spec §4.2):
leave the region's current child vertex, if any. -/
def leaveRegionCur {M : Type} (fuel : Nat) (m : Model M) (inst : Instance) (r : RId) :
    List Ev :=
  match inst.current r with
  | some x => leaveVertex fuel m inst x
  | none => []

/-- Modelled from the spec: the `beginEnter` pipeline (spec §4.2 pass A).
For a state it records the state as the current vertex of its parent region
(`instance.setCurrent(parent, self)`) and runs user entry behaviour; for a
`Terminate` pseudo state it sets `instance.isTerminated`; the `entryV` event
marks the pipeline's invocation point. -/
def beginEnterV {M : Type} (m : Model M) (v : VId) (inst : Instance) :
    Instance × List Ev :=
  (match m.vertices v with
   | some vd =>
     match vd.pseudo with
     | some .Terminate => { inst with isTerminated := true }
     | some _ => inst
     | none =>
       match vd.parent with
       | some r => inst.setCurrent r v
       | none => inst
   | none => inst, [Ev.entryV v])

/-- The initial-family child of a region, if any (resolved during compile in
the source, recomputed on demand here). -/
def findInitial {M : Type} (m : Model M) (rd : RegionData) : Option VId :=
  rd.vertices.find? fun x =>
    match m.vertices x with
    | some vd =>
      match vd.pseudo with
      | some k => k.isInitial
      | none => false
    | none => false

/-- Whether vertex `v` is a history pseudo state. -/
def isHistoryV {M : Type} (m : Model M) (v : VId) : Bool :=
  match m.vertices v with
  | some vd =>
    match vd.pseudo with
    | some k => k.isHistory
    | none => false
  | none => false

/-- Whether vertex `v` is a `DeepHistory` pseudo state. -/
def isDeepV {M : Type} (m : Model M) (v : VId) : Bool :=
  match m.vertices v with
  | some vd => vd.pseudo = some .DeepHistory
  | none => false

/-- The target of the sole outgoing transition of an initial-family pseudo
state (spec §4.2: "the region's initial-family child's sole outgoing
transition's target"). -/
def initialTarget {M : Type} (m : Model M) (ini : VId) : Option VId :=
  match m.vertices ini with
  | some vd =>
    match vd.outgoing with
    | [t] => (m.transitions t).bind (·.target)
    | _ => none
  | none => none

mutual

/-- Modelled from the spec: the `endEnter` pipeline of a vertex (spec §4.2,
implementation absent from src/).  A composite state enters each child
region in declared order; pseudo states have no descent here (compound
chaining through choice/junction is performed by the evaluator). -/
def endEnterV {M : Type} : Nat → Model M → M → Bool → VId → Instance →
    Instance × List Ev
  | 0, _, _, _, _, inst => (inst, [])
  | fuel + 1, m, msg, hist, v, inst =>
    match m.vertices v with
    | some vd =>
      match vd.pseudo with
      | some _ => (inst, [])
      | none => enterRegionsFold fuel m msg hist vd.regions inst
    | none => (inst, [])

/-- Enters a list of child regions in declared order (spec §4.2: "Composite
states' `endEnter` enters each child region in declared order"). -/
def enterRegionsFold {M : Type} : Nat → Model M → M → Bool → List RId → Instance →
    Instance × List Ev
  | 0, _, _, _, _, inst => (inst, [])
  | _ + 1, _, _, _, [], inst => (inst, [])
  | fuel + 1, m, msg, hist, r :: rest, inst =>
    let a := enterRegion fuel m msg hist r inst
    let b := enterRegionsFold fuel m msg hist rest a.1
    (b.1, a.2 ++ b.2)

/-- Modelled from the spec: the `endEnter` pipeline of a region (spec §4.2):
if the history flag is cascading or the region's initial-family child is a
history kind, and the instance has a recorded current vertex, enter the
recorded vertex; otherwise enter the initial child's sole outgoing
transition's target.  Deep history cascades the flag downward. -/
def enterRegion {M : Type} : Nat → Model M → M → Bool → RId → Instance →
    Instance × List Ev
  | 0, _, _, _, _, inst => (inst, [])
  | fuel + 1, m, msg, hist, r, inst =>
    match m.regions r with
    | none => (inst, [])
    | some rd =>
      match findInitial m rd with
      | none => (inst, [])
      | some ini =>
        let deepNext := hist || isDeepV m ini
        match (if hist || isHistoryV m ini then inst.current r else none) with
        | some rec =>
          let a := beginEnterV m rec inst
          let b := endEnterV fuel m msg deepNext rec a.1
          (b.1, a.2 ++ b.2)
        | none =>
          match initialTarget m ini with
          | none => (inst, [])
          | some tv =>
            let a := beginEnterV m tv inst
            let b := endEnterV fuel m msg deepNext tv a.1
            (b.1, a.2 ++ b.2)

end

/-- Modelled from the spec: the full `enter` pipeline of a vertex,
`enter = beginEnter ∘ endEnter` (spec §4.2). -/
def enterFull {M : Type} (fuel : Nat) (m : Model M) (msg : M) (hist : Bool) (v : VId)
    (inst : Instance) : Instance × List Ev :=
  let a := beginEnterV m v inst
  let b := endEnterV fuel m msg hist v a.1
  (b.1, a.2 ++ b.2)

/-- Modelled from the spec: the entry part of an external or local traverse
pipeline (spec §4.2 pass B): `beginEnter` each vertex of the chain except
the last, then fully `enter` the transition's target (the last chain
element). -/
def enterChain {M : Type} : Nat → Model M → M → List VId → Instance →
    Instance × List Ev
  | _, _, _, [], inst => (inst, [])
  | fuel, m, msg, [v], inst => enterFull fuel m msg false v inst
  | fuel, m, msg, v :: rest, inst =>
    let a := beginEnterV m v inst
    let b := enterChain fuel m msg rest a.1
    (b.1, a.2 ++ b.2)

/-- The outgoing transitions (by id, declared order) whose guards evaluate
true on `(msg, inst)`, the else branches excluded (spec §4.3). -/
def enabledOf {M : Type} (m : Model M) (msg : M) (inst : Instance) (ts : List TId) :
    List TId :=
  ts.filter fun t =>
    match m.transitions t with
    | some td => !td.isElse && td.guard msg inst
    | none => false

/-- The first else branch among a list of outgoing transitions. -/
def elseOf {M : Type} (m : Model M) (ts : List TId) : Option TId :=
  ts.find? fun t =>
    match m.transitions t with
    | some td => td.isElse
    | none => false

/-- Selection among several enabled transitions via the pluggable random
function (spec §6: `random(max) → integer in [0, max)`); the modulus keeps
the selection total for a non-conforming random function and is the
identity on conforming values. -/
def pickRandom (rnd : Nat → Nat) (l : List TId) (h : l ≠ []) : TId :=
  l.get ⟨rnd l.length % l.length, Nat.mod_lt _ (List.length_pos.mpr h)⟩

/-- Modelled from the spec: transition selection at a state (spec §4.3:
"the first whose guard(m, I) returns true is selected", declaration order);
the body of `fsm.State.select` is absent from src/.  An else branch carries
the always-false sentinel guard and is therefore never selected. -/
def selectFirst {M : Type} (m : Model M) (msg : M) (inst : Instance) (ts : List TId) :
    Option TId :=
  ts.find? fun t =>
    match m.transitions t with
    | some td => td.guard msg inst
    | none => false

/-- Modelled from the spec: transition selection at a pseudo state
(spec §4.3, body of `fsm.PseudoState.select` absent from src/).
`Choice`: all non-else enabled, pick one via `random`; else branch if none;
error if neither.  `Junction`: exactly one non-else enabled, else branch if
none, error on several or on none without else.  `Initial`/history: the
single outgoing transition.  An error carries the sink message. -/
def selectPseudo {M : Type} (m : Model M) (rnd : Nat → Nat) (msg : M) (inst : Instance)
    (v : VId) : Except String TId :=
  match m.vertices v with
  | none => .error "unknown vertex"
  | some vd =>
    match vd.pseudo with
    | none => .error "not a pseudo state"
    | some .Choice =>
      match enabledOf m msg inst vd.outgoing with
      | [] =>
        match elseOf m vd.outgoing with
        | some e => .ok e
        | none => .error "ill-formed: choice with no enabled transition"
      | a :: as => .ok (pickRandom rnd (a :: as) (List.cons_ne_nil a as))
    | some .Junction =>
      match enabledOf m msg inst vd.outgoing with
      | [] =>
        match elseOf m vd.outgoing with
        | some e => .ok e
        | none => .error "ill-formed: junction with no enabled transition"
      | [t] => .ok t
      | _ :: _ :: _ => .error "ill-formed: junction with multiple enabled transitions"
    | some .Initial | some .ShallowHistory | some .DeepHistory =>
      match vd.outgoing with
      | [t] => .ok t
      | _ => .error "ill-formed: initial pseudo state needs a single outgoing transition"
    | some .Terminate => .error "terminated"

/-- Modelled from the spec: pass B of the bootstrap compiler (spec §4.2,
body of `fsm.Transition.bootstrap` absent from src/).  For an external
transition, the least common ancestor region of source and target is the
last common element of their region chains; the transition leaves the
source's ancestor that is a child of the LCA and enters the target's
ancestors strictly below the LCA, outermost first.  For a local transition
it leaves the current child of the source's region on the path to the
target and enters the chain below the source.  Internal transitions leave
and enter nothing. -/
def compileT {M : Type} (fuel : Nat) (m : Model M) (t : TId) : Option CompiledT :=
  match m.transitions t with
  | none => none
  | some td =>
    match td.target with
    | none => some ⟨none, []⟩
    | some tgt =>
      match td.kind with
      | .Internal => some ⟨none, []⟩
      | .External =>
        let vaS := ancG fuel m td.source
        let vaV := ancG fuel m tgt
        let k := commonPrefixLen (regChainOf m vaS) (regChainOf m vaV)
        some ⟨some (Sum.inl ((vaS.get? k).getD td.source)), vaV.drop k⟩
      | .Local =>
        let vaV := ancG fuel m tgt
        let chain := vaV.drop (vaV.indexOf td.source + 1)
        match chain.head? with
        | some c =>
          match (m.vertices c).bind (·.parent) with
          | some r => some ⟨some (Sum.inr r), chain⟩
          | none => some ⟨none, chain⟩
        | none => some ⟨none, chain⟩

/-- Modelled from the spec: `fsm.StateMachine.bootstrap` followthrough at
the `initialise`/`evaluate` entry points (spec §4.2-§4.3, bodies absent from
src/): a clean model is left untouched; otherwise the per-transition
pipelines are precomputed and the `clean` flag is set. -/
def compile {M : Type} (m : Model M) : Model M :=
  if m.clean then m
  else { m with compiled := some (fun t => compileT m.depth m t), clean := true }

mutual

/-- Modelled from the spec: execution of a selected transition (spec §4.3,
implementation absent from src/).  The precompiled traverse runs the exit
part, the transition's own actions, and the entry chain; then, when the
target is a pseudo state, selection is re-run there and the chosen
transition is executed (compound-transition chaining), and when the target
is a state, completion transitions are evaluated from it.  Per spec §7, an
ill-formed choice/junction downstream makes the result false. -/
def runTransition {M : Type} : Nat → Model M → (Nat → Nat) → M → Instance → TId →
    EvalRes
  | 0, _, _, _, inst, _ => ⟨false, inst, []⟩
  | fuel + 1, m, rnd, msg, inst, t =>
    match m.transitions t with
    | none => ⟨false, inst, []⟩
    | some td =>
      match compileT fuel m t with
      | none => ⟨false, inst, []⟩
      | some c =>
        match td.target, td.kind with
        | none, _ =>
          let a := if m.itc then evalCompletions fuel m rnd msg inst td.source
                   else (inst, [])
          ⟨true, a.1, Ev.effectE t :: a.2⟩
        | some _, .Internal =>
          let a := if m.itc then evalCompletions fuel m rnd msg inst td.source
                   else (inst, [])
          ⟨true, a.1, Ev.effectE t :: a.2⟩
        | some tgt, _ =>
          let lt :=
            match c.exitTarget with
            | none => []
            | some (Sum.inl v) => leaveVertex fuel m inst v
            | some (Sum.inr r) => leaveRegionCur fuel m inst r
          let a := enterChain fuel m msg c.entryChain inst
          let b := postEnter fuel m rnd msg a.1 tgt
          ⟨b.consumed, b.inst, lt ++ Ev.effectE t :: (a.2 ++ b.trace)⟩

/-- Modelled from the spec: what happens after the primary traversal has
entered the transition's target (spec §4.3, execution steps 2 and 3):
chaining at a pseudo-state target, nothing further at `Terminate` (entering
it already set the flag), completion evaluation at a state target. -/
def postEnter {M : Type} : Nat → Model M → (Nat → Nat) → M → Instance → VId → EvalRes
  | 0, _, _, _, inst, _ => ⟨true, inst, []⟩
  | fuel + 1, m, rnd, msg, inst, tgt =>
    match m.vertices tgt with
    | none => ⟨true, inst, []⟩
    | some vd =>
      match vd.pseudo with
      | some .Terminate => ⟨true, inst, []⟩
      | some _ => evalAtPseudo fuel m rnd msg inst tgt
      | none =>
        let a := evalCompletions fuel m rnd msg inst tgt
        ⟨true, a.1, a.2⟩

/-- Modelled from the spec: evaluation at a reached pseudo state (spec §4.3
selection procedure and §7 error taxonomy, implementation absent from
src/): run selection; on an ill-formed outcome report the error through the
sink, leave the instance as it stands at the pseudo state and yield false;
otherwise execute the selected transition. -/
def evalAtPseudo {M : Type} : Nat → Model M → (Nat → Nat) → M → Instance → VId →
    EvalRes
  | 0, _, _, _, inst, _ => ⟨false, inst, []⟩
  | fuel + 1, m, rnd, msg, inst, v =>
    match selectPseudo m rnd msg inst v with
    | .error s => ⟨false, inst, [Ev.errorE s]⟩
    | .ok t => runTransition fuel m rnd msg inst t

/-- Modelled from the spec: completion evaluation at a vertex (spec §4.3,
execution step 3): if the vertex is complete, its outgoing completion
transitions are evaluated with the triggering message (spec §9 notes the
source re-evaluates with the same message). -/
def evalCompletions {M : Type} : Nat → Model M → (Nat → Nat) → M → Instance → VId →
    Instance × List Ev
  | 0, _, _, _, inst, _ => (inst, [])
  | fuel + 1, m, rnd, msg, inst, v =>
    if isCompleteS m inst v then
      match m.vertices v with
      | some vd =>
        match selectFirst m msg inst vd.outgoing with
        | some t =>
          let r := runTransition fuel m rnd msg inst t
          (r.inst, r.trace)
        | none => (inst, [])
      | none => (inst, [])
    else (inst, [])

end

mutual

/-- Modelled from the spec: the selection procedure at a vertex (spec §4.3,
bodies of `fsm.State.evaluate` and `fsm.Vertex.evaluate` absent from src/).
For a state, each child region is given the message first (deepest states
get priority, spec §5(b)); if none consumed it, the state's own outgoing
transitions are tried in declaration order.  When a child region consumed
the message, the state's completion transitions are evaluated.  For a
pseudo state, pseudo-state selection runs. -/
def evaluateVertexF {M : Type} : Nat → Model M → (Nat → Nat) → M → Instance → VId →
    EvalRes
  | 0, _, _, _, inst, _ => ⟨false, inst, []⟩
  | fuel + 1, m, rnd, msg, inst, v =>
    match m.vertices v with
    | none => ⟨false, inst, []⟩
    | some vd =>
      match vd.pseudo with
      | some _ => evalAtPseudo fuel m rnd msg inst v
      | none =>
        let a := evalRegionsFold fuel m rnd msg inst vd.regions
        if a.consumed then
          let b := evalCompletions fuel m rnd msg a.inst v
          ⟨true, b.1, a.trace ++ b.2⟩
        else
          match selectFirst m msg a.inst vd.outgoing with
          | some t =>
            let r := runTransition fuel m rnd msg a.inst t
            ⟨r.consumed, r.inst, a.trace ++ r.trace⟩
          | none => ⟨false, a.inst, a.trace⟩

/-- Modelled from the spec: evaluation of a message by one region (spec
§4.3): recurse into the region's current child vertex, if any. -/
def evaluateRegionF {M : Type} : Nat → Model M → (Nat → Nat) → M → Instance → RId →
    EvalRes
  | 0, _, _, _, inst, _ => ⟨false, inst, []⟩
  | fuel + 1, m, rnd, msg, inst, r =>
    match inst.current r with
    | some v => evaluateVertexF fuel m rnd msg inst v
    | none => ⟨false, inst, []⟩

/-- Evaluation of a message by each child region in declared order; the
message counts as consumed when any region consumed it. -/
def evalRegionsFold {M : Type} : Nat → Model M → (Nat → Nat) → M → Instance →
    List RId → EvalRes
  | 0, _, _, _, inst, _ => ⟨false, inst, []⟩
  | _ + 1, _, _, _, inst, [] => ⟨false, inst, []⟩
  | fuel + 1, m, rnd, msg, inst, r :: rest =>
    let a := evaluateRegionF fuel m rnd msg inst r
    let b := evalRegionsFold fuel m rnd msg a.inst rest
    ⟨a.consumed || b.consumed, b.inst, a.trace ++ b.trace⟩

end

/-- Modelled from the spec: the public `evaluate` operation (state.d.ts
lines 485-493, body absent from src/; spec §4.3): auto-compile the model if
needed, short-circuit to false for a terminated instance, otherwise attempt
to consume the message starting from the root of the active
configuration. -/
def evaluate {M : Type} (fuel : Nat) (m : Model M) (rnd : Nat → Nat) (inst : Instance)
    (msg : M) : EvalRes :=
  let m' := compile m
  if inst.isTerminated then ⟨false, inst, []⟩
  else evaluateVertexF fuel m' rnd msg inst m'.root

/-- The chain `chain` descends through active regions of the instance:
each vertex after the first is the recorded current child of one of the
regions of the vertex before it.  The source-side ancestor chain of a
traversed transition satisfies this, since the source is part of the
active configuration. -/
def linkedChain {M : Type} (m : Model M) (inst : Instance) : List VId → Prop
  | [] => True
  | [_] => True
  | y :: x :: rest =>
    (∃ vd r, m.vertices y = some vd ∧ r ∈ vd.regions ∧ inst.current r = some x) ∧
    linkedChain m inst (x :: rest)

/-- Well-formedness of an instance's recorded configuration with respect
to a model (spec §8): for every region, the recorded current vertex, when
present, is a vertex of the model whose parent is that region. -/
def wfInstance {M : Type} (m : Model M) (inst : Instance) : Prop :=
  ∀ r v, inst.current r = some v →
    ∃ vd, m.vertices v = some vd ∧ vd.parent = some r

/-! ## Concrete models used to exercise the theorems

A minimal machine: root `0` with one region `0` holding an initial pseudo
state `1`, a state `2` (one outgoing transition) and a state `3` (no
outgoing transitions, not built by the `FinalState` class). -/

/-- Vertex table of the demo machine. -/
def demoV : VId → Option VertexData
  | 0 => some ⟨none, none, false, [0], []⟩
  | 1 => some ⟨some 0, some .Initial, false, [], [0]⟩
  | 2 => some ⟨some 0, none, false, [], [1]⟩
  | 3 => some ⟨some 0, none, false, [], []⟩
  | _ => none

/-- Region table of the demo machine. -/
def demoR : RId → Option RegionData
  | 0 => some ⟨0, [1, 2, 3]⟩
  | _ => none

/-- Transition table of the demo machine: the initial transition and a
transition from state `2` to state `3` triggered by the message `1`. -/
def demoT : TId → Option (TransitionData Nat)
  | 0 => some ⟨1, some 2, .External, false, fun _ _ => true⟩
  | 1 => some ⟨2, some 3, .External, false, fun msg _ => msg == 1⟩
  | _ => none

/-- The demo machine. -/
def demoM : Model Nat := ⟨demoV, demoR, demoT, 0, true, none, 10, false⟩

/-- Vertex table of a machine whose vertex `4` is a `Choice` pseudo state
with two guarded branches and no else branch. -/
def chV : VId → Option VertexData
  | 0 => some ⟨none, none, false, [0], []⟩
  | 1 => some ⟨some 0, some .Initial, false, [], [0]⟩
  | 2 => some ⟨some 0, none, false, [], [1]⟩
  | 4 => some ⟨some 0, some .Choice, false, [], [2, 3]⟩
  | 5 => some ⟨some 0, none, false, [], []⟩
  | 6 => some ⟨some 0, none, false, [], []⟩
  | _ => none

/-- Transition table of the choice machine: both branches of the choice
are enabled exactly on the message `1`. -/
def chT : TId → Option (TransitionData Nat)
  | 0 => some ⟨1, some 2, .External, false, fun _ _ => true⟩
  | 1 => some ⟨2, some 4, .External, false, fun _ _ => true⟩
  | 2 => some ⟨4, some 5, .External, false, fun msg _ => msg == 1⟩
  | 3 => some ⟨4, some 6, .External, false, fun msg _ => msg == 1⟩
  | _ => none

/-- Region table shared by the choice and junction machines. -/
def chR : RId → Option RegionData
  | 0 => some ⟨0, [1, 2, 4, 5, 6]⟩
  | _ => none

/-- The choice machine. -/
def chM : Model Nat := ⟨chV, chR, chT, 0, true, none, 10, false⟩

/-- Vertex table of a machine whose vertex `4` is a `Junction` pseudo state
with two guarded branches and no else branch. -/
def jnV : VId → Option VertexData
  | 4 => some ⟨some 0, some .Junction, false, [], [2, 3]⟩
  | v => chV v

/-- Transition table of the junction machine: on message `1` both branches
are enabled, on message `2` exactly one, on message `0` none. -/
def jnT : TId → Option (TransitionData Nat)
  | 2 => some ⟨4, some 5, .External, false, fun msg _ => msg == 1⟩
  | 3 => some ⟨4, some 6, .External, false, fun msg _ => 1 ≤ msg⟩
  | t => chT t

/-- The junction machine. -/
def jnM : Model Nat := ⟨jnV, chR, jnT, 0, true, none, 10, false⟩

/-- A fresh instance. -/
def inst0 : Instance := ⟨fun _ => none, false⟩

/-- Vertex table of a nested machine: the root `0` holds a composite state
`10` (with inner region `1` holding state `12`) and a sibling state `13`. -/
def extV : VId → Option VertexData
  | 0 => some ⟨none, none, false, [0], []⟩
  | 1 => some ⟨some 0, some .Initial, false, [], [0]⟩
  | 10 => some ⟨some 0, none, false, [1], []⟩
  | 11 => some ⟨some 1, some .Initial, false, [], [1]⟩
  | 12 => some ⟨some 1, none, false, [], [5]⟩
  | 13 => some ⟨some 0, none, false, [], []⟩
  | _ => none

/-- Region table of the nested machine. -/
def extR : RId → Option RegionData
  | 0 => some ⟨0, [1, 10, 13]⟩
  | 1 => some ⟨10, [11, 12]⟩
  | _ => none

/-- Transition table of the nested machine; transition `5` is an external
transition from the nested state `12` to the top-level state `13`. -/
def extT : TId → Option (TransitionData Nat)
  | 0 => some ⟨1, some 10, .External, false, fun _ _ => true⟩
  | 1 => some ⟨11, some 12, .External, false, fun _ _ => true⟩
  | 5 => some ⟨12, some 13, .External, false, fun _ _ => true⟩
  | _ => none

/-- The nested machine. -/
def extM : Model Nat := ⟨extV, extR, extT, 0, true, none, 10, false⟩

/-- An instance of the nested machine whose active configuration is the
nested state `12` inside the composite state `10`. -/
def extI : Instance :=
  ⟨fun r => match r with | 0 => some 10 | 1 => some 12 | _ => none, false⟩

/-! ## The claim theorems -/

/-- C3: once an instance has entered a `Terminate` pseudo state (so its
`isTerminated` flag is true), every subsequent `evaluate` call returns
false and performs no actions: no transition is consumed, the recorded
configuration is untouched and the event trace is empty. -/
theorem evaluate_terminated_noop {M : Type} (fuel : Nat) (m : Model M)
    (rnd : Nat → Nat) (inst : Instance) (msg : M)
    (h : inst.isTerminated = true) :
    evaluate fuel m rnd inst msg = ⟨false, inst, []⟩ := by
  simp [evaluate, h]

/-- Witness for C3 on the demo machine with a terminated instance. -/
theorem evaluate_terminated_noop_witness :
    (Instance.mk (fun _ => none) true).isTerminated = true ∧
    evaluate 10 demoM (fun _ => 0) (Instance.mk (fun _ => none) true) 1 =
      ⟨false, Instance.mk (fun _ => none) true, []⟩ :=
  ⟨rfl, evaluate_terminated_noop 10 demoM (fun _ => 0) _ 1 rfl⟩

/-- C10: each call to `when` replaces any previously set guard rather than
accumulating or conjoining guards; the last call wins. -/
theorem when_last_call_wins {M : Type} (t : TransitionData M)
    (g1 g2 : M → Instance → Bool) :
    (t.when g1).when g2 = t.when g2 := rfl

/-- C7: the `Transition` constructor normalizes the kind: a `Local` kind
whose target is not a proper descendant of the source is promoted to
`External`; consequently a constructed transition of kind `Local` always
has a target that is a proper descendant of its source; and a transition
constructed with a null target is `Internal`. -/
theorem transition_kind_normalization {M : Type} (fuel : Nat) (m : Model M)
    (src : VId) (tgt : Option VId) (k : TransitionKind) (g : M → Instance → Bool) :
    (∀ t, tgt = some t → k = .Local → isProperDescendantOf fuel m t src = false →
      (mkTransition fuel m src tgt k g).kind = .External) ∧
    ((mkTransition fuel m src tgt k g).kind = .Local →
      ∃ t, tgt = some t ∧ isProperDescendantOf fuel m t src = true) ∧
    (tgt = none → (mkTransition fuel m src tgt k g).kind = .Internal) := by
  refine ⟨?_, ?_, ?_⟩
  · rintro t rfl rfl hd
    simp [mkTransition, hd]
  · intro h
    cases tgt with
    | none => simp [mkTransition] at h
    | some t =>
      refine ⟨t, rfl, ?_⟩
      cases k with
      | External => simp [mkTransition] at h
      | Internal => simp [mkTransition] at h
      | Local =>
        by_contra hd
        rw [Bool.not_eq_true] at hd
        simp [mkTransition, hd] at h
  · rintro rfl
    simp [mkTransition]

/-- Witness for C7: in the demo machine, state `3` is not an ancestor of
state `2`, so a `Local` transition from `3` to `2` is promoted to
`External`; a transition built with no target is `Internal`. -/
theorem transition_kind_normalization_witness :
    ((3 : VId) = (3 : VId) → TransitionKind.Local = .Local →
      isProperDescendantOf 10 demoM 2 3 = false →
      (mkTransition 10 demoM 3 (some 2) .Local (fun (_ : Nat) _ => true)).kind = .External) ∧
    ((mkTransition 10 demoM 3 none .Local (fun (_ : Nat) _ => true)).kind = .Internal) := by
  have h := transition_kind_normalization 10 demoM 3 (some 2) .Local
    (fun (_ : Nat) _ => true)
  have h2 := transition_kind_normalization 10 demoM 3 none .Local
    (fun (_ : Nat) _ => true)
  exact ⟨fun _ _ hd => h.1 2 rfl rfl hd, h2.2.2 rfl⟩

/-- C9: `isFinal` on a state holds exactly when the state's list of
outgoing transitions is empty; whether the state was built by the
`FinalState` class is irrelevant. -/
theorem isFinal_iff_no_outgoing {M : Type} (m : Model M) (v : VId)
    (vd : VertexData) (h : m.vertices v = some vd) (_hs : vd.pseudo = none) :
    (isFinalS m v = true ↔ vd.outgoing = []) := by
  simp [isFinalS, h, List.isEmpty_iff]

/-- Witness for C9: state `3` of the demo machine is a plain `State` (not
a `FinalState`) with no outgoing transitions, and counts as final. -/
theorem isFinal_iff_no_outgoing_witness :
    demoM.vertices 3 = some ⟨some 0, none, false, [], []⟩ ∧
    (isFinalS demoM 3 = true ↔ (VertexData.mk (some 0) none false [] []).outgoing = []) :=
  ⟨rfl, isFinal_iff_no_outgoing demoM 3 _ rfl rfl⟩

/-- C8: compiling is idempotent: the first compile leaves the root's
`clean` flag true, and a second compile returns the identical model,
pipeline table included. -/
theorem compile_idempotent {M : Type} (m : Model M) :
    (compile m).clean = true ∧ compile (compile m) = compile m := by
  by_cases h : m.clean <;> simp [compile, h]

/-- C1: at a `Choice` pseudo state reached during evaluation, the engine
collects the non-else outgoing transitions whose guards hold on the message
and instance; when at least one is enabled it executes the one picked by
the pluggable random function; when none is enabled it executes the else
branch when present; and when neither exists it reports the error through
the sink, leaves the instance untouched at the pseudo state and yields
false — `evalAtPseudo` is the function `evaluate` runs at every reached
pseudo state, its boolean propagates to `evaluate`'s result, and being a
total Lean function it cannot throw. -/
theorem choice_selection_spec {M : Type} (fuel : Nat) (m : Model M)
    (rnd : Nat → Nat) (msg : M) (inst : Instance) (v : VId) (vd : VertexData)
    (hv : m.vertices v = some vd) (hk : vd.pseudo = some .Choice) :
    (∀ a as, enabledOf m msg inst vd.outgoing = a :: as →
      evalAtPseudo (fuel + 1) m rnd msg inst v =
        runTransition fuel m rnd msg inst
          (pickRandom rnd (a :: as) (List.cons_ne_nil a as))) ∧
    (enabledOf m msg inst vd.outgoing = [] →
      ∀ e, elseOf m vd.outgoing = some e →
        evalAtPseudo (fuel + 1) m rnd msg inst v =
          runTransition fuel m rnd msg inst e) ∧
    (enabledOf m msg inst vd.outgoing = [] → elseOf m vd.outgoing = none →
      evalAtPseudo (fuel + 1) m rnd msg inst v =
        ⟨false, inst, [Ev.errorE "ill-formed: choice with no enabled transition"]⟩) := by
  refine ⟨?_, ?_, ?_⟩
  · intro a as h
    simp only [evalAtPseudo, selectPseudo, hv, hk, h]
  · intro h e he
    simp only [evalAtPseudo, selectPseudo, hv, hk, h, he]
  · intro h he
    simp only [evalAtPseudo, selectPseudo, hv, hk, h, he]

/-- Witness for C1 on the choice machine: on message `1` both branches are
enabled and the random pick (always `0`) selects the first declared branch;
on message `0` nothing is enabled, there is no else branch, and the engine
reports the error, keeps the instance and yields false. -/
theorem choice_selection_spec_witness :
    evalAtPseudo 11 chM (fun _ => 0) 1 inst0 4 =
      runTransition 10 chM (fun _ => 0) 1 inst0 2 ∧
    evalAtPseudo 11 chM (fun _ => 0) 0 inst0 4 =
      ⟨false, inst0, [Ev.errorE "ill-formed: choice with no enabled transition"]⟩ := by
  constructor
  · exact (choice_selection_spec 10 chM (fun _ => 0) 1 inst0 4 _ rfl rfl).1 2 [3]
      (by decide)
  · exact (choice_selection_spec 10 chM (fun _ => 0) 0 inst0 4 _ rfl rfl).2.2
      (by decide) (by decide)

/-- C2: at a `Junction` pseudo state reached during evaluation, the engine
collects the non-else outgoing transitions whose guards hold; exactly one
enabled transition is executed; with none enabled the else branch is
executed when present; with several enabled, or with none enabled and no
else branch, an error is reported through the sink, no transition is
traversed, the instance stays untouched at the pseudo state and the result
is false. -/
theorem junction_selection_spec {M : Type} (fuel : Nat) (m : Model M)
    (rnd : Nat → Nat) (msg : M) (inst : Instance) (v : VId) (vd : VertexData)
    (hv : m.vertices v = some vd) (hk : vd.pseudo = some .Junction) :
    (∀ t, enabledOf m msg inst vd.outgoing = [t] →
      evalAtPseudo (fuel + 1) m rnd msg inst v =
        runTransition fuel m rnd msg inst t) ∧
    (enabledOf m msg inst vd.outgoing = [] →
      ∀ e, elseOf m vd.outgoing = some e →
        evalAtPseudo (fuel + 1) m rnd msg inst v =
          runTransition fuel m rnd msg inst e) ∧
    (∀ t1 t2 rest, enabledOf m msg inst vd.outgoing = t1 :: t2 :: rest →
      evalAtPseudo (fuel + 1) m rnd msg inst v =
        ⟨false, inst,
          [Ev.errorE "ill-formed: junction with multiple enabled transitions"]⟩) ∧
    (enabledOf m msg inst vd.outgoing = [] → elseOf m vd.outgoing = none →
      evalAtPseudo (fuel + 1) m rnd msg inst v =
        ⟨false, inst,
          [Ev.errorE "ill-formed: junction with no enabled transition"]⟩) := by
  refine ⟨?_, ?_, ?_, ?_⟩
  · intro t h
    simp only [evalAtPseudo, selectPseudo, hv, hk, h]
  · intro h e he
    simp only [evalAtPseudo, selectPseudo, hv, hk, h, he]
  · intro t1 t2 rest h
    simp only [evalAtPseudo, selectPseudo, hv, hk, h]
  · intro h he
    simp only [evalAtPseudo, selectPseudo, hv, hk, h, he]

/-- Witness for C2 on the junction machine: message `2` enables exactly the
second branch, which is executed; message `1` enables both branches and
produces the multiple-transitions error; message `0` enables none and there
is no else branch, producing the no-transition error. -/
theorem junction_selection_spec_witness :
    evalAtPseudo 11 jnM (fun _ => 0) 2 inst0 4 =
      runTransition 10 jnM (fun _ => 0) 2 inst0 3 ∧
    evalAtPseudo 11 jnM (fun _ => 0) 1 inst0 4 =
      ⟨false, inst0,
        [Ev.errorE "ill-formed: junction with multiple enabled transitions"]⟩ ∧
    evalAtPseudo 11 jnM (fun _ => 0) 0 inst0 4 =
      ⟨false, inst0,
        [Ev.errorE "ill-formed: junction with no enabled transition"]⟩ := by
  refine ⟨?_, ?_, ?_⟩
  · exact (junction_selection_spec 10 jnM (fun _ => 0) 2 inst0 4 _ rfl rfl).1 3
      (by decide)
  · exact (junction_selection_spec 10 jnM (fun _ => 0) 1 inst0 4 _ rfl rfl).2.2.1
      2 3 [] (by decide)
  · exact (junction_selection_spec 10 jnM (fun _ => 0) 0 inst0 4 _ rfl rfl).2.2.2
      (by decide) (by decide)

/-- Every `leave` trace ends with the vertex's own exit point: child
regions are left first (spec §5(c), exit runs child-before-parent). -/
theorem leaveVertex_ends_exit {M : Type} (fuel : Nat) (m : Model M)
    (inst : Instance) (v : VId) :
    ∃ pre, leaveVertex fuel m inst v = pre ++ [Ev.exitV v] := by
  cases fuel with
  | zero => exact ⟨[], rfl⟩
  | succ f => exact ⟨_, rfl⟩

/-- Along a chain of active ancestors (outermost first), leaving the
outermost element exits every chain member, deepest first: the reversed
chain's exit events are a subsequence of the `leave` trace. -/
theorem leave_chain_sublist {M : Type} (m : Model M) (inst : Instance) :
    ∀ (ys : List VId) (y : VId) (fuel : Nat), linkedChain m inst (y :: ys) →
      ys.length ≤ fuel →
      (((y :: ys).reverse).map Ev.exitV).Sublist (leaveVertex fuel m inst y) := by
  intro ys
  induction ys with
  | nil =>
    intro y fuel _ _
    obtain ⟨pre, hp⟩ := leaveVertex_ends_exit fuel m inst y
    rw [hp]
    simp only [List.reverse_cons, List.reverse_nil, List.nil_append,
      List.map_cons, List.map_nil]
    exact List.sublist_append_right pre [Ev.exitV y]
  | cons x rest ih =>
    intro y fuel hl hf
    obtain ⟨⟨vd, r, hvd, hr, hc⟩, hl2⟩ := hl
    cases fuel with
    | zero => simp at hf
    | succ f =>
      have hrest : rest.length ≤ f := by
        simpa using Nat.succ_le_succ_iff.mp (by simpa using hf)
      have hsub := ih x f hl2 hrest
      have hmem : leaveVertex f m inst x ∈
          vd.regions.map fun r' =>
            match inst.current r' with
            | some x' => leaveVertex f m inst x'
            | none => [] := by
        have := List.mem_map_of_mem
          (fun r' =>
            match inst.current r' with
            | some x' => leaveVertex f m inst x'
            | none => []) hr
        simpa [hc] using this
      have hA : (((x :: rest).reverse).map Ev.exitV).Sublist
          ((vd.regions.map fun r' =>
            match inst.current r' with
            | some x' => leaveVertex f m inst x'
            | none => []).flatten) :=
        hsub.trans (List.sublist_flatten_of_mem hmem)
      have : (((y :: x :: rest).reverse).map Ev.exitV) =
          (((x :: rest).reverse).map Ev.exitV) ++ [Ev.exitV y] := by
        simp
      rw [this]
      simp only [leaveVertex, hvd]
      exact hA.append (List.Sublist.refl _)

/-- The trace of entering a nonempty chain starts with the `beginEnter`
events of the chain's vertices, outermost first. -/
theorem enterChain_trace_form {M : Type} (fuel : Nat) (m : Model M) (msg : M) :
    ∀ (chain : List VId) (inst : Instance), chain ≠ [] →
      ∃ endT, (enterChain fuel m msg chain inst).2 = chain.map Ev.entryV ++ endT := by
  intro chain
  induction chain with
  | nil => intro inst h; exact absurd rfl h
  | cons v rest ih =>
    intro inst _
    cases rest with
    | nil =>
      exact ⟨(endEnterV fuel m msg false v (beginEnterV m v inst).1).2,
        by simp [enterChain, enterFull, beginEnterV]⟩
    | cons w rest2 =>
      obtain ⟨endT, he⟩ := ih (beginEnterV m v inst).1 (List.cons_ne_nil w rest2)
      refine ⟨endT, ?_⟩
      show (beginEnterV m v inst).2 ++
        (enterChain fuel m msg (w :: rest2) (beginEnterV m v inst).1).2 =
        (v :: w :: rest2).map Ev.entryV ++ endT
      rw [he]
      rfl

/-- C4: a traversed external transition from source `S` to target `V`
first runs the `leave` pipeline of the source-side ancestor that is a
child of the least common ancestor region — and along the active chain
this exits every ancestor of `S` strictly below the LCA, deepest first —
then runs the transition's own actions, then enters the ancestors of `V`
strictly below the LCA shallowest first, down to `V` itself. -/
theorem external_transition_order {M : Type} (fuel : Nat) (m : Model M)
    (rnd : Nat → Nat) (msg : M) (inst : Instance) (t : TId)
    (td : TransitionData M) (tgt aS : VId) (chainS chainV : List VId) (k : Nat)
    (ht : m.transitions t = some td)
    (hkd : td.kind = .External)
    (htgt : td.target = some tgt)
    (hk : k = commonPrefixLen (regChainOf m (ancG fuel m td.source))
      (regChainOf m (ancG fuel m tgt)))
    (hcs : (ancG fuel m td.source).drop k = chainS)
    (hcv : (ancG fuel m tgt).drop k = chainV)
    (has : chainS.head? = some aS)
    (hvne : chainV ≠ [])
    (hlink : linkedChain m inst chainS)
    (hlen : chainS.length ≤ fuel + 1) :
    ∃ consumed inst2 endT,
      runTransition (fuel + 1) m rnd msg inst t =
        ⟨consumed, inst2,
          leaveVertex fuel m inst aS ++
            Ev.effectE t :: (chainV.map Ev.entryV ++ endT)⟩ ∧
      ((chainS.reverse).map Ev.exitV).Sublist (leaveVertex fuel m inst aS) := by
  have hget : (ancG fuel m td.source).get? k = some aS := by
    rw [← has, ← hcs]
    simp [List.head?_eq_getElem?, List.get?_eq_getElem?]
  have hcomp : compileT fuel m t = some ⟨some (Sum.inl aS), chainV⟩ := by
    simp only [compileT, ht, htgt, hkd, ← hk, hget, ← hcv]
    rfl
  obtain ⟨tail, htail⟩ : ∃ tail, chainS = aS :: tail := by
    cases chainS with
    | nil => simp at has
    | cons a l =>
      refine ⟨l, ?_⟩
      simp only [List.head?_cons, Option.some.injEq] at has
      rw [has]
  obtain ⟨endT1, he⟩ := enterChain_trace_form fuel m msg chainV inst hvne
  refine ⟨(postEnter fuel m rnd msg
      (enterChain fuel m msg chainV inst).1 tgt).consumed,
    (postEnter fuel m rnd msg (enterChain fuel m msg chainV inst).1 tgt).inst,
    endT1 ++ (postEnter fuel m rnd msg
      (enterChain fuel m msg chainV inst).1 tgt).trace, ?_, ?_⟩
  · simp only [runTransition, ht, hcomp, htgt, hkd]
    rw [he]
    simp
  · rw [htail]
    rw [htail] at hlink hlen
    exact leave_chain_sublist m inst tail aS fuel hlink
      (Nat.succ_le_succ_iff.mp (by simpa using hlen))

/-- Witness for C4 on the nested machine: the external transition `5` from
the nested state `12` to the top-level state `13` leaves the composite
state `10` — exiting `12` and then `10`, deepest first — runs its action,
and enters `13`. -/
theorem external_transition_order_witness :
    linkedChain extM extI [10, 12] ∧
    (∃ consumed inst2 endT,
      runTransition (5 + 1) extM (fun _ => 0) 0 extI 5 =
        ⟨consumed, inst2,
          leaveVertex 5 extM extI 10 ++
            Ev.effectE 5 :: (([13] : List VId).map Ev.entryV ++ endT)⟩ ∧
      ((([10, 12] : List VId).reverse).map Ev.exitV).Sublist
        (leaveVertex 5 extM extI 10)) := by
  have hlink : linkedChain extM extI [10, 12] :=
    ⟨⟨⟨some 0, none, false, [1], []⟩, 1, rfl, by simp, rfl⟩, trivial⟩
  exact ⟨hlink,
    external_transition_order 5 extM (fun _ => 0) 0 extI 5
      ⟨12, some 13, .External, false, fun _ _ => true⟩ 13 10 [10, 12] [13] 1
      rfl rfl rfl rfl rfl rfl rfl (by simp) hlink (by simp)⟩

/-- `beginEnter` preserves configuration well-formedness: the only update
it makes records a vertex under its own parent region. -/
theorem beginEnterV_wf {M : Type} (m : Model M) (v : VId) (inst : Instance)
    (h : wfInstance m inst) : wfInstance m (beginEnterV m v inst).1 := by
  cases hv : m.vertices v with
  | none => simpa [beginEnterV, hv] using h
  | some vd =>
    cases hp : vd.pseudo with
    | some k =>
      cases k <;> simpa [beginEnterV, hv, hp] using h
    | none =>
      cases hpar : vd.parent with
      | none => simpa [beginEnterV, hv, hp, hpar] using h
      | some r =>
        intro r' v' h'
        simp only [beginEnterV, hv, hp, hpar, Instance.setCurrent] at h'
        by_cases hr : r' = r
        · subst hr
          simp at h'
          subst h'
          exact ⟨vd, hv, hpar⟩
        · exact h r' v' (by simpa [hr] using h')

/-- The entry pipelines preserve configuration well-formedness. -/
theorem enter_preserves_wf {M : Type} (m : Model M) :
    ∀ fuel : Nat,
      (∀ (msg : M) hist v inst, wfInstance m inst →
        wfInstance m (endEnterV fuel m msg hist v inst).1) ∧
      (∀ (msg : M) hist rs inst, wfInstance m inst →
        wfInstance m (enterRegionsFold fuel m msg hist rs inst).1) ∧
      (∀ (msg : M) hist r inst, wfInstance m inst →
        wfInstance m (enterRegion fuel m msg hist r inst).1) := by
  intro fuel
  induction fuel with
  | zero =>
    refine ⟨fun _ _ _ _ h => ?_, fun _ _ _ _ h => ?_, fun _ _ _ _ h => ?_⟩ <;>
      simpa [endEnterV, enterRegionsFold, enterRegion] using h
  | succ f ih =>
    obtain ⟨ihE, ihF, ihR⟩ := ih
    refine ⟨?_, ?_, ?_⟩
    · intro msg hist v inst h
      cases hv : m.vertices v with
      | none => simpa [endEnterV, hv] using h
      | some vd =>
        cases hp : vd.pseudo with
        | some k => simpa [endEnterV, hv, hp] using h
        | none => simpa [endEnterV, hv, hp] using ihF msg hist vd.regions inst h
    · intro msg hist rs inst h
      cases rs with
      | nil => simpa [enterRegionsFold] using h
      | cons r rest =>
        simpa [enterRegionsFold] using
          ihF msg hist rest _ (ihR msg hist r inst h)
    · intro msg hist r inst h
      simp only [enterRegion]
      split
      · exact h
      split
      · exact h
      next ini _ =>
        split
        next rv _ =>
          exact ihE msg (hist || isDeepV m ini) rv _ (beginEnterV_wf m rv inst h)
        next =>
          split
          · exact h
          next tv _ =>
            exact ihE msg (hist || isDeepV m ini) tv _ (beginEnterV_wf m tv inst h)

/-- The combined `enter` pipeline preserves well-formedness. -/
theorem enterFull_wf {M : Type} (fuel : Nat) (m : Model M) (msg : M) (hist : Bool)
    (v : VId) (inst : Instance) (h : wfInstance m inst) :
    wfInstance m (enterFull fuel m msg hist v inst).1 :=
  (enter_preserves_wf m fuel).1 msg hist v _ (beginEnterV_wf m v inst h)

/-- Entering a chain of vertices preserves well-formedness. -/
theorem enterChain_wf {M : Type} (fuel : Nat) (m : Model M) (msg : M) :
    ∀ (chain : List VId) (inst : Instance), wfInstance m inst →
      wfInstance m (enterChain fuel m msg chain inst).1 := by
  intro chain
  induction chain with
  | nil => intro inst h; simpa [enterChain] using h
  | cons v rest ih =>
    intro inst h
    cases rest with
    | nil => simpa [enterChain] using enterFull_wf fuel m msg false v inst h
    | cons w rest2 =>
      simpa [enterChain] using ih _ (beginEnterV_wf m v inst h)

/-- The transition-execution functions preserve well-formedness. -/
theorem run_preserves_wf {M : Type} (m : Model M) :
    ∀ fuel : Nat,
      (∀ rnd (msg : M) inst t, wfInstance m inst →
        wfInstance m (runTransition fuel m rnd msg inst t).inst) ∧
      (∀ rnd (msg : M) inst v, wfInstance m inst →
        wfInstance m (postEnter fuel m rnd msg inst v).inst) ∧
      (∀ rnd (msg : M) inst v, wfInstance m inst →
        wfInstance m (evalAtPseudo fuel m rnd msg inst v).inst) ∧
      (∀ rnd (msg : M) inst v, wfInstance m inst →
        wfInstance m (evalCompletions fuel m rnd msg inst v).1) := by
  intro fuel
  induction fuel with
  | zero =>
    refine ⟨fun _ _ _ _ h => ?_, fun _ _ _ _ h => ?_, fun _ _ _ _ h => ?_,
      fun _ _ _ _ h => ?_⟩ <;>
      simpa [runTransition, postEnter, evalAtPseudo, evalCompletions] using h
  | succ f ih =>
    obtain ⟨ihT, ihP, ihA, ihC⟩ := ih
    refine ⟨?_, ?_, ?_, ?_⟩
    · intro rnd msg inst t h
      cases ht : m.transitions t with
      | none => simpa [runTransition, ht] using h
      | some td =>
        cases hcp : compileT f m t with
        | none => simpa [runTransition, ht, hcp] using h
        | some c =>
          cases htt : td.target with
          | none =>
            cases hitc : m.itc with
            | false => simpa [runTransition, ht, hcp, htt, hitc] using h
            | true =>
              simpa [runTransition, ht, hcp, htt, hitc] using
                ihC rnd msg inst td.source h
          | some tgt =>
            cases htk : td.kind with
            | Internal =>
              cases hitc : m.itc with
              | false => simpa [runTransition, ht, hcp, htt, htk, hitc] using h
              | true =>
                simpa [runTransition, ht, hcp, htt, htk, hitc] using
                  ihC rnd msg inst td.source h
            | External =>
              simpa [runTransition, ht, hcp, htt, htk] using
                ihP rnd msg _ tgt (enterChain_wf f m msg c.entryChain inst h)
            | Local =>
              simpa [runTransition, ht, hcp, htt, htk] using
                ihP rnd msg _ tgt (enterChain_wf f m msg c.entryChain inst h)
    · intro rnd msg inst v h
      cases hv : m.vertices v with
      | none => simpa [postEnter, hv] using h
      | some vd =>
        cases hp : vd.pseudo with
        | none => simpa [postEnter, hv, hp] using ihC rnd msg inst v h
        | some k =>
          cases k <;>
            first
            | exact (by simpa [postEnter, hv, hp] using h)
            | exact (by simpa [postEnter, hv, hp] using ihA rnd msg inst v h)
    · intro rnd msg inst v h
      cases hs : selectPseudo m rnd msg inst v with
      | error s => simpa [evalAtPseudo, hs] using h
      | ok t => simpa [evalAtPseudo, hs] using ihT rnd msg inst t h
    · intro rnd msg inst v h
      cases hco : isCompleteS m inst v with
      | false => simpa [evalCompletions, hco] using h
      | true =>
        cases hv : m.vertices v with
        | none => simpa [evalCompletions, hco, hv] using h
        | some vd =>
          cases hsf : selectFirst m msg inst vd.outgoing with
          | none => simpa [evalCompletions, hco, hv, hsf] using h
          | some t =>
            simpa [evalCompletions, hco, hv, hsf] using ihT rnd msg inst t h

/-- The top-down evaluation functions preserve well-formedness. -/
theorem evaluateVertexF_wf {M : Type} (m : Model M) :
    ∀ fuel : Nat,
      (∀ rnd (msg : M) inst v, wfInstance m inst →
        wfInstance m (evaluateVertexF fuel m rnd msg inst v).inst) ∧
      (∀ rnd (msg : M) inst r, wfInstance m inst →
        wfInstance m (evaluateRegionF fuel m rnd msg inst r).inst) ∧
      (∀ rnd (msg : M) inst rs, wfInstance m inst →
        wfInstance m (evalRegionsFold fuel m rnd msg inst rs).inst) := by
  intro fuel
  induction fuel with
  | zero =>
    refine ⟨fun _ _ _ _ h => ?_, fun _ _ _ _ h => ?_, fun _ _ _ _ h => ?_⟩ <;>
      simpa [evaluateVertexF, evaluateRegionF, evalRegionsFold] using h
  | succ f ih =>
    obtain ⟨ihV, ihR, ihF⟩ := ih
    refine ⟨?_, ?_, ?_⟩
    · intro rnd msg inst v h
      cases hv : m.vertices v with
      | none => simpa [evaluateVertexF, hv] using h
      | some vd =>
        cases hp : vd.pseudo with
        | some k =>
          simpa [evaluateVertexF, hv, hp] using
            (run_preserves_wf m f).2.2.1 rnd msg inst v h
        | none =>
          have hfold := ihF rnd msg inst vd.regions h
          cases hcons : (evalRegionsFold f m rnd msg inst vd.regions).consumed with
          | true =>
            simpa [evaluateVertexF, hv, hp, hcons] using
              (run_preserves_wf m f).2.2.2 rnd msg _ v hfold
          | false =>
            cases hsf : selectFirst m msg
                (evalRegionsFold f m rnd msg inst vd.regions).inst vd.outgoing with
            | none => simpa [evaluateVertexF, hv, hp, hcons, hsf] using hfold
            | some t =>
              simpa [evaluateVertexF, hv, hp, hcons, hsf] using
                (run_preserves_wf m f).1 rnd msg _ t hfold
    · intro rnd msg inst r h
      cases hc : inst.current r with
      | none => simpa [evaluateRegionF, hc] using h
      | some v => simpa [evaluateRegionF, hc] using ihV rnd msg inst v h
    · intro rnd msg inst rs h
      cases rs with
      | nil => simpa [evalRegionsFold] using h
      | cons r rest =>
        simpa [evalRegionsFold] using ihF rnd msg _ rest (ihR rnd msg inst r h)

/-- Compiling does not change the vertex table. -/
theorem compile_vertices {M : Type} (m : Model M) :
    (compile m).vertices = m.vertices := by
  by_cases h : m.clean <;> simp [compile, h]

/-- Well-formedness is indifferent to compilation. -/
theorem wfInstance_compile {M : Type} (m : Model M) (inst : Instance) :
    wfInstance (compile m) inst ↔ wfInstance m inst := by
  simp [wfInstance, compile_vertices]

/-- C6: for every region and every instance, after any `evaluate` call the
recorded current vertex of the region is either absent (never entered) or a
vertex of the model whose parent is that region; evaluation preserves this
well-formedness of the configuration because the engine only ever records a
vertex under its own parent region. -/
theorem evaluate_preserves_current_wf {M : Type} (fuel : Nat) (m : Model M)
    (rnd : Nat → Nat) (inst : Instance) (msg : M)
    (h : wfInstance m inst) :
    wfInstance m (evaluate fuel m rnd inst msg).inst := by
  cases hterm : inst.isTerminated with
  | true => simpa [evaluate, hterm] using h
  | false =>
    have h2 : wfInstance (compile m) inst := (wfInstance_compile m inst).mpr h
    have h3 := (evaluateVertexF_wf (compile m) fuel).1 rnd msg inst (compile m).root h2
    rw [← wfInstance_compile m]
    simpa [evaluate, hterm] using h3

/-- Witness for C6 on the demo machine: a fresh instance is well-formed and
stays well-formed after evaluating a message (which moves the machine from
state `2` to state `3`). -/
theorem evaluate_preserves_current_wf_witness :
    wfInstance demoM inst0 ∧
    wfInstance demoM (evaluate 10 demoM (fun _ => 0) inst0 1).inst :=
  have h : wfInstance demoM inst0 := fun _ _ h' => Option.noConfusion h'
  ⟨h, evaluate_preserves_current_wf 10 demoM (fun _ => 0) inst0 1 h⟩

end StateJS
